import Mathlib

/-!
Shallow embedding of the prime-finder pipeline (src/main.rs).

Bytes are modelled as natural numbers (each buffer element is a byte value),
arbitrary-precision integers as `Nat`.  The external big-integer library
(rug) contributes `from_digits`, `to_digits` and `is_probably_prime`; the
first two are modelled concretely below, the primality primitive is kept as
an explicit function parameter `ipp : Nat → Nat → Bool` (rounds, number),
since the pipeline only composes it.  Progress bars and logging are
telemetry and are omitted.  The `HashMap` built by `collect` is modelled by
the raw entry list together with a lookup that returns the value of the
last entry with the given key (later entries overwrite earlier ones).
-/

namespace PrimeFinder

/-- rug `Integer::from_digits(window, Order::Msf)`: most-significant byte
first interpretation of a byte sequence. -/
def fromDigitsMsf (l : List Nat) : Nat :=
  l.foldl (fun acc b => acc * 256 + b) 0

/-- rug `Integer::from_digits(window, Order::Lsf)`: least-significant byte
first interpretation of a byte sequence. -/
def fromDigitsLsf (l : List Nat) : Nat :=
  l.foldr (fun b acc => acc * 256 + b) 0

/-- Fuel-driven little-endian byte expansion (the fuel is an upper bound on
the number of digits; `n` itself always suffices). -/
def toDigitsLsfAux : Nat → Nat → List Nat
  | 0, _ => []
  | fuel + 1, n => if n = 0 then [] else n % 256 :: toDigitsLsfAux fuel (n / 256)

/-- rug `Integer::to_digits::<u8>(Order::Lsf)`: minimal little-endian byte
encoding; the encoding of 0 is the empty sequence. -/
def toDigitsLsf (n : Nat) : List Nat :=
  toDigitsLsfAux n n

/-- rug `Integer::to_digits::<u8>(Order::Msf)`: minimal big-endian byte
encoding, the reverse of the little-endian one. -/
def toDigitsMsf (n : Nat) : List Nat :=
  (toDigitsLsf n).reverse

/-- Rust `slice::windows(n)` (and rayon `par_windows`): all contiguous
length-`n` subslices, left to right; empty when `n` exceeds the length.
Rust panics on `n = 0`; the claims below always take `0 < n`. -/
def slidingWindows (l : List Nat) (n : Nat) : List (List Nat) :=
  if n = 0 ∨ l.length < n then []
  else (List.range (l.length - n + 1)).map (fun i => (l.drop i).take n)

/-- The structural null-run filter of `main` (src/main.rs lines 163-167):
a window is kept when no length-`f` sub-window consists entirely of zero
bytes. -/
def windowKept (f : Nat) (w : List Nat) : Bool :=
  ! (slidingWindows w f).any (fun sw => sw.all (fun b => b == 0))

/-- The windows surviving the structural filter (src/main.rs lines 159-167). -/
def filteredWindows (f p : Nat) (buf : List Nat) : List (List Nat) :=
  (slidingWindows buf p).filter (windowKept f)

/-- The candidate integers of `main` (src/main.rs lines 168-174): each
surviving window is read in both byte orders. -/
def candidates (f p : Nat) (buf : List Nat) : List Nat :=
  (filteredWindows f p buf).flatMap (fun w => [fromDigitsMsf w, fromDigitsLsf w])

/-- The primality filtering of `main` (src/main.rs lines 175-178): a single
call `number.is_probably_prime(20)`, keeping `Yes` and `Probably`.  `ipp`
is the external probabilistic-primality primitive (rounds, number). -/
def confirmedPrimes (ipp : Nat → Nat → Bool) (f p : Nat) (buf : List Nat) : List Nat :=
  (candidates f p buf).filter (fun n => ipp 20 n)

/-- The ConfirmedPrime set (`HashSet` collect, src/main.rs line 181),
modelled as the deduplicated candidate list. -/
def primesOf (ipp : Nat → Nat → Bool) (f p : Nat) (buf : List Nat) : List Nat :=
  (confirmedPrimes ipp f p buf).dedup

/-- The two-stage primality filtering described by the specification
(stage 1 with 1 round on every candidate, stage 2 with 20 rounds on the
survivors), written from the spec for comparison with `confirmedPrimes`. -/
def confirmedPrimesTwoStage (ipp : Nat → Nat → Bool) (f p : Nat) (buf : List Nat) : List Nat :=
  (candidates f p buf).filter (fun n => ipp 1 n && ipp 20 n)

/-- The ConfirmedPrime set under the specification's two-stage filtering. -/
def primesOfTwoStage (ipp : Nat → Nat → Bool) (f p : Nat) (buf : List Nat) : List Nat :=
  (confirmedPrimesTwoStage ipp f p buf).dedup

/-- src/main.rs line 16. -/
def PRIMES_WARNING_THRESHOLD : Nat := 1000

/-- Pair generation of `main` (src/main.rs lines 196-203): cartesian
product of the prime set with itself, keeping the pairs with `p <= q`. -/
def pqPairs (primes : List Nat) : List (Nat × Nat) :=
  (primes.product primes).filter (fun pr => decide (pr.1 ≤ pr.2))

/-- The composite-index entries of `main` (src/main.rs lines 201-211): for
every kept pair, the minimal LSF and MSF byte encodings of the product,
each paired with the pair itself, in generation order. -/
def pqnTuples (primes : List Nat) : List (List Nat × (Nat × Nat)) :=
  (pqPairs primes).flatMap (fun pr =>
    [(toDigitsLsf (pr.1 * pr.2), pr), (toDigitsMsf (pr.1 * pr.2), pr)])

/-- `HashMap` lookup for a map built by `collect` from an entry list:
the value of the last entry carrying the key, if any (later entries
overwrite earlier ones). -/
def hmFind (entries : List (List Nat × (Nat × Nat))) (k : List Nat) : Option (Nat × Nat) :=
  (entries.reverse.find? (fun e => decide (e.1 = k))).map (fun e => e.2)

/-- The warning emission and index construction of `main` (src/main.rs
lines 185-211): the advisory fires when the confirmed-prime count exceeds
the threshold, and the composite index is built either way. -/
def mainPhase2 (primes : List Nat) : Bool × List (List Nat × (Nat × Nat)) :=
  (decide (PRIMES_WARNING_THRESHOLD < primes.length), pqnTuples primes)

/-- `finder_sliding_window` (src/main.rs lines 19-36): every window of
`2 * prime_size` bytes is looked up directly in the composite index. -/
def finder_sliding_window (idx : List (List Nat × (Nat × Nat))) (buf : List Nat)
    (p : Nat) : List (Nat × Nat) :=
  (slidingWindows buf (2 * p)).filterMap (fun w => hmFind idx w)

/-- Pattern occurrence at a given offset: the buffer continues with the
pattern at position `i`. -/
def occursAt (k : List Nat) (buf : List Nat) (i : Nat) : Bool :=
  decide (i + k.length ≤ buf.length) && decide ((buf.drop i).take k.length = k)

/-- The pattern set handed to the automaton: the keys of the composite
index (a `HashMap` holds each key once). -/
def keysOf (idx : List (List Nat × (Nat × Nat))) : List (List Nat) :=
  (idx.map (fun e => e.1)).dedup

/-- `finder_aho_corasick` (src/main.rs lines 38-56).  Modelled from the
spec: the aho_corasick crate is external; per spec section 4.4b the
automaton "finds every occurrence of every pattern in a single linear
pass", and each match is resolved by looking the matched bytes up in the
composite index. -/
def finder_aho_corasick (idx : List (List Nat × (Nat × Nat))) (buf : List Nat) :
    List (Nat × Nat) :=
  ((List.range (buf.length + 1)).flatMap (fun i =>
    (keysOf idx).filter (fun k => occursAt k buf i))).filterMap (fun k => hmFind idx k)

/-- The fingerprint table of `finder_rabin_karp` (src/main.rs lines
72-82): every index key is fingerprinted (the hasher is reset, then every
byte of the key is slid through it) and mapped to the key's pair.  `fp` is
the rolling fingerprint of a byte sequence. -/
def fingerTable (fp : List Nat → Nat) (idx : List (List Nat × (Nat × Nat))) :
    List (Nat × (Nat × Nat)) :=
  idx.map (fun e => (fp e.1, e.2))

/-- The last `w` bytes of the first `i` bytes of the buffer: the rolling
window of width `w` ending at position `i`, shorter when fewer than `w`
bytes have been consumed. -/
def lastBytes (w i : Nat) (buf : List Nat) : List Nat :=
  (buf.take i).drop (i - w)

/-- The separator scan of `finder_rabin_karp` (src/main.rs lines 84-86).
Modelled from the spec: the cdc crate is external; per spec section 4.4c
the scan computes a rolling fingerprint over a window of width `w` as it
slides byte-by-byte through the buffer and emits a separator at every
position whose fingerprint matches one precomputed in the table.  A
separator's index is the count of bytes consumed when it fires. -/
def separatorIndices (fp : List Nat → Nat) (w : Nat) (table : List (Nat × (Nat × Nat)))
    (buf : List Nat) : List Nat :=
  (List.range buf.length).filterMap (fun j =>
    if table.any (fun e => decide (e.1 = fp (lastBytes w (j + 1) buf))) then some (j + 1)
    else none)

/-- The re-slice and exact lookup of `finder_rabin_karp` (src/main.rs
lines 87-92), over a given separator index list: each separator re-slices
the buffer at `[index - 2 * prime_size, index)` and performs an exact
lookup in the composite index.  The Rust slice panics when
`index < 2 * prime_size` or `index > len`; this is modelled by `none`. -/
def finderRabinKarpSeps (idx : List (List Nat × (Nat × Nat))) (buf : List Nat)
    (p : Nat) (seps : List Nat) : Option (List (Nat × Nat)) :=
  if seps.all (fun i => decide (2 * p ≤ i) && decide (i ≤ buf.length)) then
    some (seps.filterMap (fun i => hmFind idx (lastBytes (2 * p) i buf)))
  else none

/-- `finder_rabin_karp` (src/main.rs lines 59-93): fingerprint table,
separator scan, then exact re-verification of every separator hit. -/
def finder_rabin_karp (fp : List Nat → Nat) (w : Nat)
    (idx : List (List Nat × (Nat × Nat))) (buf : List Nat) (p : Nat) :
    Option (List (Nat × Nat)) :=
  finderRabinKarpSeps idx buf p (separatorIndices fp w (fingerTable fp idx) buf)

/-- The scan prologue of `main` (src/main.rs line 153): the unchecked
usize subtraction `file_contents.len() - prime_size`.  Under checked
arithmetic an underflow is a panic with the generic overflow message;
there is no precondition check of its own. -/
def scanPrologue (buf : List Nat) (p : Nat) : Except String Nat :=
  if p ≤ buf.length then Except.ok (buf.length - p)
  else Except.error "attempt to subtract with overflow"

/-- A concrete injective fingerprint, used to instantiate the modelled
rolling hash on witnesses. -/
def encodeList : List Nat → Nat
  | [] => 0
  | b :: t => Nat.pair b (encodeList t) + 1

/-- A run of `f` consecutive zero bytes starting at offset `i` of `w`. -/
def ZeroRunAt (f : Nat) (w : List Nat) (i : Nat) : Prop :=
  i + f ≤ w.length ∧ (w.drop i).take f = List.replicate f 0

/-- The window contains `f` consecutive zero bytes somewhere. -/
def HasZeroRun (f : Nat) (w : List Nat) : Prop :=
  ∃ i, ZeroRunAt f w i

instance (f : Nat) (w : List Nat) (i : Nat) : Decidable (ZeroRunAt f w i) := by
  unfold ZeroRunAt; infer_instance

/-! ### Helper lemmas about the embedding -/

lemma fromDigitsLsf_cons (b : Nat) (t : List Nat) :
    fromDigitsLsf (b :: t) = fromDigitsLsf t * 256 + b := rfl

lemma toDigitsLsfAux_spec :
    ∀ fuel n, n ≤ fuel → fromDigitsLsf (toDigitsLsfAux fuel n) = n := by
  intro fuel
  induction fuel with
  | zero =>
    intro n hn
    have : n = 0 := Nat.le_zero.mp hn
    subst this; rfl
  | succ fuel ih =>
    intro n hn
    by_cases h : n = 0
    · subst h; simp [toDigitsLsfAux, fromDigitsLsf]
    · have hlt : n / 256 < n := Nat.div_lt_self (Nat.pos_of_ne_zero h) (by omega)
      have hdiv : n / 256 ≤ fuel := by omega
      simp only [toDigitsLsfAux, h, if_false, fromDigitsLsf_cons, ih _ hdiv]
      omega

lemma fromDigitsLsf_toDigitsLsf (n : Nat) : fromDigitsLsf (toDigitsLsf n) = n :=
  toDigitsLsfAux_spec n n le_rfl

lemma toDigitsLsf_injective : Function.Injective toDigitsLsf := by
  intro a b h
  have := congrArg fromDigitsLsf h
  rwa [fromDigitsLsf_toDigitsLsf, fromDigitsLsf_toDigitsLsf] at this

lemma toDigitsMsf_injective : Function.Injective toDigitsMsf := by
  intro a b h
  exact toDigitsLsf_injective (List.reverse_injective h)

lemma mem_slidingWindows {l : List Nat} {n : Nat} (hn : 0 < n) {w : List Nat} :
    w ∈ slidingWindows l n ↔ ∃ i, i + n ≤ l.length ∧ w = (l.drop i).take n := by
  unfold slidingWindows
  by_cases h : l.length < n
  · rw [if_pos (Or.inr h)]
    simp only [List.not_mem_nil, false_iff, not_exists, not_and]
    intro i hi
    omega
  · have hc : ¬ (n = 0 ∨ l.length < n) := by omega
    rw [if_neg hc, List.mem_map]
    constructor
    · rintro ⟨i, hi, rfl⟩
      rw [List.mem_range] at hi
      exact ⟨i, by omega, rfl⟩
    · rintro ⟨i, hi, rfl⟩
      exact ⟨i, List.mem_range.mpr (by omega), rfl⟩

lemma length_window {l : List Nat} {i n : Nat} (h : i + n ≤ l.length) :
    ((l.drop i).take n).length = n := by
  simp only [List.length_take, List.length_drop]
  omega

lemma mem_pqPairs {S : List Nat} {pr : Nat × Nat} :
    pr ∈ pqPairs S ↔ pr.1 ∈ S ∧ pr.2 ∈ S ∧ pr.1 ≤ pr.2 := by
  cases pr with
  | mk a b => simp [pqPairs, List.mem_filter, List.pair_mem_product, and_assoc]

lemma mem_pqnTuples {S : List Nat} {e : List Nat × (Nat × Nat)} :
    e ∈ pqnTuples S ↔ e.2 ∈ pqPairs S ∧
      (e.1 = toDigitsLsf (e.2.1 * e.2.2) ∨ e.1 = toDigitsMsf (e.2.1 * e.2.2)) := by
  unfold pqnTuples
  rw [List.mem_flatMap]
  constructor
  · rintro ⟨pr, hpr, hmem⟩
    simp only [List.mem_cons, List.mem_singleton, List.not_mem_nil, or_false] at hmem
    rcases hmem with rfl | rfl <;> simp [hpr]
  · rintro ⟨h2, h1 | h1⟩
    · exact ⟨e.2, h2, by cases e with | mk a b => simp_all⟩
    · exact ⟨e.2, h2, by cases e with | mk a b => simp_all⟩

lemma hmFind_eq_some_mem {entries : List (List Nat × (Nat × Nat))} {k : List Nat}
    {pr : Nat × Nat} (h : hmFind entries k = some pr) : (k, pr) ∈ entries := by
  unfold hmFind at h
  cases hf : entries.reverse.find? (fun e => decide (e.1 = k)) with
  | none => rw [hf] at h; simp at h
  | some e =>
    rw [hf] at h
    simp at h
    have he1 : e.1 = k := by have := List.find?_some hf; simpa using this
    have hm : e ∈ entries.reverse := List.mem_of_find?_eq_some hf
    rw [List.mem_reverse] at hm
    have : e = (k, pr) := by
      cases e with | mk a b => simp_all
    rwa [this] at hm

lemma hmFind_isSome_of_mem {entries : List (List Nat × (Nat × Nat))} {k : List Nat}
    {pr : Nat × Nat} (h : (k, pr) ∈ entries) : ∃ pr2, hmFind entries k = some pr2 := by
  unfold hmFind
  have hex : ∃ e ∈ entries.reverse, (fun e : List Nat × (Nat × Nat) => decide (e.1 = k)) e = true :=
    ⟨(k, pr), by simpa using h, by simp⟩
  have hs := List.find?_isSome.mpr hex
  cases hf : entries.reverse.find? (fun e => decide (e.1 = k)) with
  | none => rw [hf] at hs; simp at hs
  | some e => exact ⟨e.2, rfl⟩

lemma mem_keysOf_of_hmFind {idx : List (List Nat × (Nat × Nat))} {k : List Nat}
    {pr : Nat × Nat} (h : hmFind idx k = some pr) : k ∈ keysOf idx := by
  have hmem := hmFind_eq_some_mem h
  unfold keysOf
  rw [List.mem_dedup, List.mem_map]
  exact ⟨(k, pr), hmem, rfl⟩

lemma hmFind_of_mem_keysOf {idx : List (List Nat × (Nat × Nat))} {k : List Nat}
    (h : k ∈ keysOf idx) : ∃ pr, hmFind idx k = some pr := by
  unfold keysOf at h
  rw [List.mem_dedup, List.mem_map] at h
  obtain ⟨e, he, rfl⟩ := h
  exact @hmFind_isSome_of_mem idx e.1 e.2 (by cases e with | mk a b => exact he)

lemma encodeList_injective : Function.Injective encodeList := by
  intro a
  induction a with
  | nil =>
    intro b h
    cases b with
    | nil => rfl
    | cons y t => simp [encodeList] at h
  | cons x xs ih =>
    intro b h
    cases b with
    | nil => simp [encodeList] at h
    | cons y ys =>
      simp only [encodeList, Nat.add_right_cancel_iff] at h
      obtain ⟨h1, h2⟩ := Nat.pair_eq_pair.mp h
      rw [h1, ih h2]

lemma prime_pair_unique {p q r s : Nat} (hp : p.Prime) (hq : q.Prime) (hr : r.Prime)
    (hs : s.Prime) (hpq : p ≤ q) (hrs : r ≤ s) (h : p * q = r * s) : p = r ∧ q = s := by
  have hpd : p ∣ r * s := h ▸ Dvd.intro q rfl
  rcases (Nat.Prime.dvd_mul hp).mp hpd with h1 | h2
  · have hpr : p = r := (Nat.prime_dvd_prime_iff_eq hp hr).mp h1
    subst hpr
    exact ⟨rfl, Nat.eq_of_mul_eq_mul_left hp.pos h⟩
  · have hps : p = s := (Nat.prime_dvd_prime_iff_eq hp hs).mp h2
    subst hps
    have hqr : q = r := by
      have hcomm : p * q = p * r := by rw [h, Nat.mul_comm]
      exact Nat.eq_of_mul_eq_mul_left hp.pos hcomm
    subst hqr
    have : p = q := le_antisymm hpq hrs
    subst this
    exact ⟨rfl, rfl⟩

lemma count_filterMap_eq (f : List Nat → Option (Nat × Nat)) (l : List (List Nat))
    (b : Nat × Nat) :
    (l.filterMap f).count b = (l.filter (fun a => decide (f a = some b))).length := by
  induction l with
  | nil => rfl
  | cons x t ih =>
    cases h : f x with
    | none => simp [List.filterMap_cons, h, List.filter_cons, ih]
    | some y =>
      by_cases hy : y = b
      · subst hy
        simp [List.filterMap_cons, h, List.filter_cons, List.count_cons, ih]
      · simp [List.filterMap_cons, h, List.filter_cons, List.count_cons, hy, ih]

lemma lastBytes_eq {l : List Nat} {w i : Nat} (hw : w ≤ i) :
    lastBytes w i l = (l.drop (i - w)).take w := by
  unfold lastBytes
  rw [List.drop_take]
  congr 1
  omega

lemma length_lastBytes {l : List Nat} {w i : Nat} (hi : i ≤ l.length) :
    (lastBytes w i l).length = i - (i - w) := by
  unfold lastBytes
  simp only [List.length_drop, List.length_take]
  omega

lemma mem_separatorIndices {fp : List Nat → Nat} {w : Nat}
    {table : List (Nat × (Nat × Nat))} {buf : List Nat} {i : Nat} :
    i ∈ separatorIndices fp w table buf ↔
      0 < i ∧ i ≤ buf.length ∧
        table.any (fun e => decide (e.1 = fp (lastBytes w i buf))) = true := by
  unfold separatorIndices
  rw [List.mem_filterMap]
  constructor
  · rintro ⟨j, hj, hij⟩
    rw [List.mem_range] at hj
    by_cases hc : table.any (fun e => decide (e.1 = fp (lastBytes w (j + 1) buf))) = true
    · rw [if_pos hc] at hij
      obtain rfl : j + 1 = i := by exact Option.some.inj hij
      exact ⟨by omega, by omega, hc⟩
    · rw [if_neg hc] at hij
      exact absurd hij (by simp)
  · rintro ⟨h0, hlen, hany⟩
    refine ⟨i - 1, List.mem_range.mpr (by omega), ?_⟩
    have : i - 1 + 1 = i := by omega
    rw [this, if_pos hany]

lemma finderRabinKarpSeps_eq_some {idx : List (List Nat × (Nat × Nat))} {buf : List Nat}
    {p : Nat} {seps : List Nat} {rs : List (Nat × Nat)}
    (h : finderRabinKarpSeps idx buf p seps = some rs) :
    (∀ i ∈ seps, 2 * p ≤ i ∧ i ≤ buf.length)
    ∧ rs = seps.filterMap (fun i => hmFind idx (lastBytes (2 * p) i buf)) := by
  unfold finderRabinKarpSeps at h
  by_cases hc : seps.all (fun i => decide (2 * p ≤ i) && decide (i ≤ buf.length)) = true
  · rw [if_pos hc] at h
    refine ⟨?_, (Option.some.inj h).symm⟩
    intro i hi
    have := List.all_eq_true.mp hc i hi
    simpa using this
  · rw [if_neg hc] at h
    exact absurd h (by simp)

lemma count_product {S T : List Nat} {a b : Nat} :
    (S.product T).count (a, b) = S.count a * T.count b := by
  induction S with
  | nil => simp [List.product]
  | cons x xs ih =>
    have hcons : (x :: xs).product T = T.map (Prod.mk x) ++ xs.product T := by
      simp [List.product]
    rw [hcons, List.count_append, ih, List.count_cons]
    have hmap : ∀ L : List Nat, List.count (x, b) (L.map (Prod.mk x)) = L.count b := by
      intro L
      induction L with
      | nil => rfl
      | cons y ys ihy =>
        simp only [List.map_cons, List.count_cons, ihy]
        by_cases hyb : y = b
        · subst hyb; simp
        · simp [hyb]
    by_cases hxa : x = a
    · subst hxa
      rw [hmap T]
      simp only [beq_self_eq_true, if_true]
      ring
    · have hz : (a, b) ∉ T.map (Prod.mk x) := by
        intro hmem
        rw [List.mem_map] at hmem
        obtain ⟨y, _, hy⟩ := hmem
        exact hxa ((Prod.mk.injEq _ _ _ _).mp hy).1
      rw [List.count_eq_zero.mpr hz]
      simp [hxa]

lemma lsf_entry_mem {S : List Nat} {p q : Nat} (h : (p, q) ∈ pqPairs S) :
    (toDigitsLsf (p * q), (p, q)) ∈ pqnTuples S :=
  mem_pqnTuples.mpr ⟨h, Or.inl rfl⟩

lemma msf_entry_mem {S : List Nat} {p q : Nat} (h : (p, q) ∈ pqPairs S) :
    (toDigitsMsf (p * q), (p, q)) ∈ pqnTuples S :=
  mem_pqnTuples.mpr ⟨h, Or.inr rfl⟩

/-! ### Claim theorems -/

/-- C3: with a 3-byte buffer and prime_size 5 (prime_size exceeds the
buffer length) the scan prologue's unchecked usize subtraction underflows:
the run dies with the generic arithmetic-overflow panic (and in an
unchecked build wraps silently); no precondition error naming the cause is
produced. -/
theorem C3_underflow_panic :
    scanPrologue [0, 0, 0] 5 = Except.error "attempt to subtract with overflow" := rfl

/-- C9: the resource-exhaustion advisory fires iff the confirmed-prime
count exceeds the fixed threshold 1000; a set of size 1001 triggers it, a
set of size 999 does not, and the composite index is built either way (no
hard cap). -/
theorem C9_warning_threshold :
    (∀ primes : List Nat,
      ((mainPhase2 primes).1 = true ↔ 1000 < primes.length)
      ∧ (mainPhase2 primes).2 = pqnTuples primes)
    ∧ (mainPhase2 (List.range 1001)).1 = true
    ∧ (mainPhase2 (List.range 999)).1 = false := by
  refine ⟨fun primes => ⟨?_, rfl⟩, ?_, ?_⟩
  · simp [mainPhase2, PRIMES_WARNING_THRESHOLD]
  · simp [mainPhase2, PRIMES_WARNING_THRESHOLD, List.length_range]
  · simp [mainPhase2, PRIMES_WARNING_THRESHOLD, List.length_range]

/-- C2 (amended): the primality filter applies a single 20-round
probabilistic test (one `is_probably_prime(20)` call); an integer is in
the ConfirmedPrime set iff it is a candidate read from some surviving
window and passes the 20-round test. -/
theorem C2_single_stage (ipp : Nat → Nat → Bool) (f p : Nat) (buf : List Nat) (n : Nat) :
    n ∈ primesOf ipp f p buf ↔ n ∈ candidates f p buf ∧ ipp 20 n = true := by
  unfold primesOf confirmedPrimes
  rw [List.mem_dedup, List.mem_filter]

/-- C2 counterexample: with a primality primitive that fails every number
at 1 round and passes at 20 rounds, the code's ConfirmedPrime set contains
an element that does not report probably-prime under the low-round test,
and differs from the specification's two-stage set: the code has no cheap
first stage. -/
theorem C2_counterexample :
    2 ∈ primesOf (fun r _ => decide (r = 20)) 1 1 [2]
    ∧ (fun r _ => decide (r = 20)) 1 2 = false
    ∧ primesOf (fun r _ => decide (r = 20)) 1 1 [2]
        ≠ primesOfTwoStage (fun r _ => decide (r = 20)) 1 1 [2] := by
  decide

/-- C4 counterexample: over the index built from primes {17, 19}, the
buffer [1, 67, 1, 67] matches the product 323 = 17·19 (MSF bytes [1, 67])
at two offsets and its LSF bytes [67, 1] at one offset, and the naive
matcher reports the pair (17, 19) three times, not once. -/
theorem C4_counterexample :
    (17, 19) ∈ finder_sliding_window (pqnTuples [17, 19]) [1, 67, 1, 67] 1
    ∧ (finder_sliding_window (pqnTuples [17, 19]) [1, 67, 1, 67] 1).count (17, 19) = 3 := by
  decide

/-- C4 (amended): the naive matcher does not deduplicate by (P, Q): every
window of 2·prime_size bytes whose index lookup hits contributes one
entry, so a pair appears once per matching occurrence (offset and
orientation), its multiplicity being the number of matching windows. -/
theorem C4_one_result_per_occurrence (idx : List (List Nat × (Nat × Nat)))
    (buf : List Nat) (p : Nat) (pr : Nat × Nat) :
    (finder_sliding_window idx buf p).count pr
      = ((slidingWindows buf (2 * p)).filter
          (fun w => decide (hmFind idx w = some pr))).length := by
  unfold finder_sliding_window
  exact count_filterMap_eq _ _ _

/-- C5: a window containing null_filter_length (or more) consecutive zero
bytes anywhere is rejected by the structural filter, hence discarded
before any big-integer construction; moreover every member of the
ConfirmedPrime set is read (in MSF or LSF order) from a window that
survived the filter. -/
theorem C5_null_run_excluded (f p : Nat) (w : List Nat) (buf : List Nat)
    (ipp : Nat → Nat → Bool) (hf : 0 < f) (hrun : HasZeroRun f w) :
    windowKept f w = false ∧ w ∉ filteredWindows f p buf
    ∧ ∀ n, n ∈ primesOf ipp f p buf →
        ∃ w2, w2 ∈ filteredWindows f p buf
          ∧ (n = fromDigitsMsf w2 ∨ n = fromDigitsLsf w2) := by
  obtain ⟨i, hlen, heq⟩ := hrun
  have hsub : (w.drop i).take f ∈ slidingWindows w f :=
    (mem_slidingWindows hf).mpr ⟨i, hlen, rfl⟩
  have hall : ((w.drop i).take f).all (fun b => b == 0) = true := by
    rw [heq]
    simp [List.all_eq_true, List.mem_replicate]
  have hany : (slidingWindows w f).any (fun sw => sw.all (fun b => b == 0)) = true :=
    List.any_eq_true.mpr ⟨_, hsub, hall⟩
  have hkept : windowKept f w = false := by
    unfold windowKept
    rw [hany]
    rfl
  refine ⟨hkept, ?_, ?_⟩
  · intro hmem
    rw [filteredWindows, List.mem_filter] at hmem
    rw [hkept] at hmem
    exact absurd hmem.2 (by simp)
  · intro n hn
    rw [primesOf, List.mem_dedup, confirmedPrimes, List.mem_filter] at hn
    rw [candidates, List.mem_flatMap] at hn
    obtain ⟨⟨w2, hw2, hn2⟩, _⟩ := hn
    refine ⟨w2, hw2, ?_⟩
    simp only [List.mem_cons, List.not_mem_nil, or_false] at hn2
    exact hn2

/-- C5 witness: the window [0, 5] has a single zero byte, is rejected with
null_filter_length 1, and the conclusions of the null-run exclusion
theorem hold concretely on the buffer [0, 5]. -/
theorem C5_witness :
    windowKept 1 [0, 5] = false ∧ [0, 5] ∉ filteredWindows 1 2 [0, 5]
    ∧ ∀ n, n ∈ primesOf (fun _ _ => true) 1 2 [0, 5] →
        ∃ w2, w2 ∈ filteredWindows 1 2 [0, 5]
          ∧ (n = fromDigitsMsf w2 ∨ n = fromDigitsLsf w2) :=
  C5_null_run_excluded 1 2 [0, 5] [0, 5] (fun _ _ => true) (by decide)
    ⟨0, by decide, by decide⟩

/-- C6: every pair stored in the composite index satisfies P ≤ Q, every
pair any matcher returns satisfies P ≤ Q (so (P,Q) and (Q,P) can never
both be reported as distinct results), self-pairs are generated, and with
a deduplicated prime set each unordered pair of primes contributes exactly
one canonical pair at generation time. -/
theorem C6_canonical_pairs (S : List Nat) (buf : List Nat) (p : Nat) (hnd : S.Nodup) :
    (∀ pr ∈ pqPairs S, pr.1 ≤ pr.2)
    ∧ (∀ e ∈ pqnTuples S, e.2.1 ≤ e.2.2)
    ∧ (∀ pr ∈ finder_sliding_window (pqnTuples S) buf p, pr.1 ≤ pr.2)
    ∧ (∀ pr ∈ finder_aho_corasick (pqnTuples S) buf, pr.1 ≤ pr.2)
    ∧ (∀ seps rs, finderRabinKarpSeps (pqnTuples S) buf p seps = some rs →
        ∀ pr ∈ rs, pr.1 ≤ pr.2)
    ∧ (∀ a, a ∈ S → (a, a) ∈ pqPairs S)
    ∧ (∀ a b, a ∈ S → b ∈ S → a ≤ b → (pqPairs S).count (a, b) = 1) := by
  have h1 : ∀ pr ∈ pqPairs S, pr.1 ≤ pr.2 := fun pr hpr => (mem_pqPairs.mp hpr).2.2
  have h2 : ∀ e ∈ pqnTuples S, e.2.1 ≤ e.2.2 := fun e he => h1 _ (mem_pqnTuples.mp he).1
  have hlookup : ∀ k pr, hmFind (pqnTuples S) k = some pr → pr.1 ≤ pr.2 := by
    intro k pr h
    exact h2 (k, pr) (hmFind_eq_some_mem h)
  refine ⟨h1, h2, ?_, ?_, ?_, ?_, ?_⟩
  · intro pr hpr
    rw [finder_sliding_window, List.mem_filterMap] at hpr
    obtain ⟨w, _, hw⟩ := hpr
    exact hlookup _ _ hw
  · intro pr hpr
    rw [finder_aho_corasick, List.mem_filterMap] at hpr
    obtain ⟨k, _, hk⟩ := hpr
    exact hlookup _ _ hk
  · intro seps rs h pr hpr
    obtain ⟨_, rfl⟩ := finderRabinKarpSeps_eq_some h
    rw [List.mem_filterMap] at hpr
    obtain ⟨i, _, hi⟩ := hpr
    exact hlookup _ _ hi
  · intro a ha
    exact mem_pqPairs.mpr ⟨ha, ha, le_rfl⟩
  · intro a b ha hb hab
    unfold pqPairs
    rw [List.count_filter (by simpa using hab), count_product,
      List.count_eq_one_of_mem hnd ha, List.count_eq_one_of_mem hnd hb]

/-- C6 witness: the canonical-pairing conclusions instantiated at the
prime set {17, 19}, buffer [1, 67] and prime_size 1. -/
theorem C6_canonical_pairs_witness :
    (∀ pr ∈ pqPairs [17, 19], pr.1 ≤ pr.2)
    ∧ (∀ e ∈ pqnTuples [17, 19], e.2.1 ≤ e.2.2)
    ∧ (∀ pr ∈ finder_sliding_window (pqnTuples [17, 19]) [1, 67] 1, pr.1 ≤ pr.2)
    ∧ (∀ pr ∈ finder_aho_corasick (pqnTuples [17, 19]) [1, 67], pr.1 ≤ pr.2)
    ∧ (∀ seps rs, finderRabinKarpSeps (pqnTuples [17, 19]) [1, 67] 1 seps = some rs →
        ∀ pr ∈ rs, pr.1 ≤ pr.2)
    ∧ (∀ a, a ∈ [17, 19] → (a, a) ∈ pqPairs [17, 19])
    ∧ (∀ a b, a ∈ [17, 19] → b ∈ [17, 19] → a ≤ b → (pqPairs [17, 19]).count (a, b) = 1) :=
  C6_canonical_pairs [17, 19] [1, 67] 1 (by decide)

/-- C7 counterexample: over the prime set {2, 29, 53, 131} the MSF
encoding of 2·131 = 262 and the LSF encoding of 29·53 = 1537 are the same
byte string [1, 6]; the index maps that key to (29, 53) only, so the MSF
encoding of the pair (2, 131)'s product does not map to (2, 131): the
claimed injective both-orientations mapping fails. -/
theorem C7_counterexample :
    Nat.Prime 2 ∧ Nat.Prime 29 ∧ Nat.Prime 53 ∧ Nat.Prime 131
    ∧ (2, 131) ∈ pqPairs [2, 29, 53, 131]
    ∧ (29, 53) ∈ pqPairs [2, 29, 53, 131]
    ∧ toDigitsMsf (2 * 131) = toDigitsLsf (29 * 53)
    ∧ hmFind (pqnTuples [2, 29, 53, 131]) (toDigitsMsf (2 * 131)) = some (29, 53)
    ∧ ((29, 53) : Nat × Nat) ≠ (2, 131) := by
  decide

/-- C7 (amended): if every element of S is prime and no cross-orientation
collision occurs (the LSF encoding of one generated pair's product never
equals the MSF encoding of a different generated pair's product), then for
every P ≤ Q drawn from S the index maps both the LSF and the MSF encoding
of P·Q to exactly (P, Q); and unconditionally every key of the index
resolves only to a pair whose product it encodes in one of the two
orientations. -/
theorem C7_index_bijective (S : List Nat) (p q : Nat)
    (hP : ∀ x ∈ S, Nat.Prime x)
    (hcross : ∀ pr1 ∈ pqPairs S, ∀ pr2 ∈ pqPairs S,
      toDigitsLsf (pr1.1 * pr1.2) = toDigitsMsf (pr2.1 * pr2.2) → pr1 = pr2)
    (hp : p ∈ S) (hq : q ∈ S) (hpq : p ≤ q) :
    hmFind (pqnTuples S) (toDigitsLsf (p * q)) = some (p, q)
    ∧ hmFind (pqnTuples S) (toDigitsMsf (p * q)) = some (p, q)
    ∧ ∀ k pr, hmFind (pqnTuples S) k = some pr →
        k = toDigitsLsf (pr.1 * pr.2) ∨ k = toDigitsMsf (pr.1 * pr.2) := by
  have hpair : (p, q) ∈ pqPairs S := mem_pqPairs.mpr ⟨hp, hq, hpq⟩
  have hsame : ∀ pr ∈ pqPairs S, pr.1 * pr.2 = p * q → pr = (p, q) := by
    intro pr hpr hprod
    obtain ⟨h1, h2, h3⟩ := mem_pqPairs.mp hpr
    obtain ⟨hl, hr⟩ := prime_pair_unique (hP _ h1) (hP _ h2) (hP _ hp) (hP _ hq) h3 hpq hprod
    cases pr with | mk a b => simp_all
  have hlsf_val : ∀ pr2, hmFind (pqnTuples S) (toDigitsLsf (p * q)) = some pr2 →
      pr2 = (p, q) := by
    intro pr2 h
    obtain ⟨hmem, hk⟩ := mem_pqnTuples.mp (hmFind_eq_some_mem h)
    rcases hk with hk | hk
    · exact hsame pr2 hmem (toDigitsLsf_injective hk.symm)
    · exact (hcross (p, q) hpair pr2 hmem hk).symm
  have hmsf_val : ∀ pr2, hmFind (pqnTuples S) (toDigitsMsf (p * q)) = some pr2 →
      pr2 = (p, q) := by
    intro pr2 h
    obtain ⟨hmem, hk⟩ := mem_pqnTuples.mp (hmFind_eq_some_mem h)
    rcases hk with hk | hk
    · exact hcross pr2 hmem (p, q) hpair hk.symm
    · exact hsame pr2 hmem (toDigitsMsf_injective hk.symm)
  refine ⟨?_, ?_, ?_⟩
  · obtain ⟨pr2, h2⟩ := hmFind_isSome_of_mem (lsf_entry_mem hpair)
    rw [h2, hlsf_val pr2 h2]
  · obtain ⟨pr2, h2⟩ := hmFind_isSome_of_mem (msf_entry_mem hpair)
    rw [h2, hmsf_val pr2 h2]
  · intro k pr h
    obtain ⟨_, hk⟩ := mem_pqnTuples.mp (hmFind_eq_some_mem h)
    exact hk

/-- C7 witness: the amended index-bijectivity conclusions hold concretely
for the collision-free prime set {17, 19} at the pair (17, 19). -/
theorem C7_index_bijective_witness :
    hmFind (pqnTuples [17, 19]) (toDigitsLsf (17 * 19)) = some (17, 19)
    ∧ hmFind (pqnTuples [17, 19]) (toDigitsMsf (17 * 19)) = some (17, 19)
    ∧ ∀ k pr, hmFind (pqnTuples [17, 19]) k = some pr →
        k = toDigitsLsf (pr.1 * pr.2) ∨ k = toDigitsMsf (pr.1 * pr.2) :=
  C7_index_bijective [17, 19] 17 19 (by decide) (by decide) (by decide) (by decide)
    (by decide)

lemma lastBytes_window {buf : List Nat} {o n : Nat} :
    lastBytes n (o + n) buf = (buf.drop o).take n := by
  rw [lastBytes_eq (Nat.le_add_left n o), Nat.add_sub_cancel]

lemma sep_window_is_key {fp : List Nat → Nat} {p : Nat}
    {idx : List (List Nat × (Nat × Nat))} {buf : List Nat} {i : Nat}
    (hinj : Function.Injective fp)
    (hlen : ∀ k ∈ idx.map Prod.fst, k.length = 2 * p)
    (hi : i ∈ separatorIndices fp (2 * p) (fingerTable fp idx) buf) :
    2 * p ≤ i ∧ i ≤ buf.length ∧ lastBytes (2 * p) i buf ∈ idx.map Prod.fst := by
  obtain ⟨h0, hl, hany⟩ := mem_separatorIndices.mp hi
  rw [List.any_eq_true] at hany
  obtain ⟨e, he, heq⟩ := hany
  rw [fingerTable, List.mem_map] at he
  obtain ⟨ent, hent, rfl⟩ := he
  simp only [decide_eq_true_eq] at heq
  have hkey : ent.1 = lastBytes (2 * p) i buf := hinj heq
  have hklen : ent.1.length = 2 * p := hlen ent.1 (List.mem_map.mpr ⟨ent, hent, rfl⟩)
  have hblen : (lastBytes (2 * p) i buf).length = i - (i - 2 * p) := length_lastBytes hl
  have h2p : 2 * p ≤ i := by
    rw [hkey, hblen] at hklen
    omega
  refine ⟨h2p, hl, ?_⟩
  rw [← hkey]
  exact List.mem_map.mpr ⟨ent, hent, rfl⟩

lemma sep_of_window {fp : List Nat → Nat} {p : Nat}
    {idx : List (List Nat × (Nat × Nat))} {buf : List Nat} {o : Nat}
    (ho : o + 2 * p ≤ buf.length)
    (hmem : (buf.drop o).take (2 * p) ∈ idx.map Prod.fst) (hp : 0 < p) :
    o + 2 * p ∈ separatorIndices fp (2 * p) (fingerTable fp idx) buf := by
  apply mem_separatorIndices.mpr
  refine ⟨by omega, by omega, ?_⟩
  rw [List.any_eq_true]
  rw [List.mem_map] at hmem
  obtain ⟨ent, hent, hkey⟩ := hmem
  refine ⟨(fp ent.1, ent.2), List.mem_map.mpr ⟨ent, hent, rfl⟩, ?_⟩
  simp only [decide_eq_true_eq]
  rw [lastBytes_window, hkey]

/-- C8: a fingerprint hit never by itself produces a MatchResult:
whatever separator index list the fingerprint scan produced, a pair only
enters the rolling-hash matcher's output through the exact lookup of the
buffer re-slice in the composite index, and every index key maps to a pair
whose own product it encodes — so every reported pair's product encoding
occurs as a contiguous substring of the buffer. -/
theorem C8_exact_reverification (S : List Nat) (buf : List Nat) (p : Nat)
    (seps : List Nat) (rs : List (Nat × Nat))
    (h : finderRabinKarpSeps (pqnTuples S) buf p seps = some rs) :
    ∀ pr ∈ rs, ∃ i, 2 * p ≤ i ∧ i ≤ buf.length
      ∧ (lastBytes (2 * p) i buf = toDigitsLsf (pr.1 * pr.2)
        ∨ lastBytes (2 * p) i buf = toDigitsMsf (pr.1 * pr.2)) := by
  obtain ⟨hbounds, rfl⟩ := finderRabinKarpSeps_eq_some h
  intro pr hpr
  rw [List.mem_filterMap] at hpr
  obtain ⟨i, hi, hfind⟩ := hpr
  obtain ⟨h2p, hlen⟩ := hbounds i hi
  obtain ⟨_, hk⟩ := mem_pqnTuples.mp (hmFind_eq_some_mem hfind)
  exact ⟨i, h2p, hlen, hk⟩

/-- C8 witness: on the buffer [1, 67] with the index of primes {17, 19}
and separator index 2, the matcher output [(17, 19)] satisfies the exact
re-verification property concretely. -/
theorem C8_exact_reverification_witness :
    ∃ i, 2 * 1 ≤ i ∧ i ≤ ([1, 67] : List Nat).length
      ∧ (lastBytes (2 * 1) i [1, 67] = toDigitsLsf (17 * 19)
        ∨ lastBytes (2 * 1) i [1, 67] = toDigitsMsf (17 * 19)) :=
  C8_exact_reverification [17, 19] [1, 67] 1 [2] [(17, 19)] (by decide) (17, 19) (by decide)

/-- C10 counterexample: with the prime set {2, 3} every index key is a
single byte; on the buffer [6, 0] the modelled fingerprint scan (window
width 2, collision-free fingerprint) fires after the very first byte,
since [6] encodes 2·3: the separator index 1 is below 2·prime_size = 2,
so the re-slice subtraction underflows and the matcher run is a panic
(modelled none), not a result set. -/
theorem C10_counterexample :
    1 ∈ separatorIndices encodeList 2 (fingerTable encodeList (pqnTuples [2, 3])) [6, 0]
    ∧ 1 < 2 * 1
    ∧ finder_rabin_karp encodeList 2 (pqnTuples [2, 3]) [6, 0] 1 = none := by
  decide

/-- C10 (amended): a separator index never exceeds the buffer length, and
provided every index key is exactly 2·prime_size bytes and the
fingerprint is collision-free at window width 2·prime_size, every
separator index is also at least 2·prime_size: the re-slice subtraction
never underflows, the slice is in bounds, and the matcher returns a
result list. -/
theorem C10_separator_bounds (fp : List Nat → Nat) (S : List Nat) (buf : List Nat)
    (p : Nat) (hinj : Function.Injective fp)
    (hlen : ∀ k ∈ (pqnTuples S).map Prod.fst, k.length = 2 * p) :
    (∀ table i, i ∈ separatorIndices fp (2 * p) table buf → 0 < i ∧ i ≤ buf.length)
    ∧ (∀ i ∈ separatorIndices fp (2 * p) (fingerTable fp (pqnTuples S)) buf, 2 * p ≤ i)
    ∧ ∃ rs, finder_rabin_karp fp (2 * p) (pqnTuples S) buf p = some rs := by
  refine ⟨?_, ?_, ?_⟩
  · intro table i hi
    obtain ⟨h0, hl, _⟩ := mem_separatorIndices.mp hi
    exact ⟨h0, hl⟩
  · intro i hi
    exact (sep_window_is_key hinj hlen hi).1
  · have hall : (separatorIndices fp (2 * p) (fingerTable fp (pqnTuples S)) buf).all
        (fun i => decide (2 * p ≤ i) && decide (i ≤ buf.length)) = true := by
      rw [List.all_eq_true]
      intro i hi
      obtain ⟨h2p, hl, _⟩ := sep_window_is_key hinj hlen hi
      simp [h2p, hl]
    unfold finder_rabin_karp finderRabinKarpSeps
    rw [if_pos hall]
    exact ⟨_, rfl⟩

/-- C10 witness: the separator bounds hold concretely for the index of
primes {17, 19} (all keys 2 bytes) on the buffer [1, 67] with the
injective fingerprint. -/
theorem C10_separator_bounds_witness :
    (∀ table i, i ∈ separatorIndices encodeList (2 * 1) table [1, 67] →
        0 < i ∧ i ≤ ([1, 67] : List Nat).length)
    ∧ (∀ i ∈ separatorIndices encodeList (2 * 1)
        (fingerTable encodeList (pqnTuples [17, 19])) [1, 67], 2 * 1 ≤ i)
    ∧ ∃ rs, finder_rabin_karp encodeList (2 * 1) (pqnTuples [17, 19]) [1, 67] 1 = some rs :=
  C10_separator_bounds encodeList [17, 19] [1, 67] 1 encodeList_injective (by decide)

/-- C1 counterexample: with the prime set {2, 3} and prime_size 1, the
product 6 = 2·3 has a single-byte key; in the buffer [2, 3, 6] the
automaton matcher (which finds every occurrence of every key) reports
(2, 3) while the naive matcher, which only examines windows of exactly
2·prime_size = 2 bytes, reports nothing: the strategies do not return
identical MatchResult sets. -/
theorem C1_counterexample :
    (2, 3) ∈ finder_aho_corasick (pqnTuples [2, 3]) [2, 3, 6]
    ∧ (2, 3) ∉ finder_sliding_window (pqnTuples [2, 3]) [2, 3, 6] 1
    ∧ finder_sliding_window (pqnTuples [2, 3]) [2, 3, 6] 1 = [] := by
  decide

/-- C1 (amended): when every key of the composite index is exactly
2·prime_size bytes and the rolling fingerprint is collision-free at
window width 2·prime_size, the three matcher strategies return identical
MatchResult sets: the naive and automaton matchers agree on membership,
and the rolling-hash matcher completes without panicking with the same
member set. -/
theorem C1_strategy_equivalence (fp : List Nat → Nat) (S : List Nat) (buf : List Nat)
    (p : Nat) (hp : 0 < p) (hinj : Function.Injective fp)
    (hlen : ∀ k ∈ (pqnTuples S).map Prod.fst, k.length = 2 * p) :
    (∀ pr, pr ∈ finder_sliding_window (pqnTuples S) buf p
        ↔ pr ∈ finder_aho_corasick (pqnTuples S) buf)
    ∧ ∃ rs, finder_rabin_karp fp (2 * p) (pqnTuples S) buf p = some rs
        ∧ ∀ pr, (pr ∈ rs ↔ pr ∈ finder_sliding_window (pqnTuples S) buf p) := by
  have hp2 : 0 < 2 * p := by omega
  have hchar : ∀ pr, pr ∈ finder_sliding_window (pqnTuples S) buf p ↔
      ∃ o, o + 2 * p ≤ buf.length
        ∧ hmFind (pqnTuples S) ((buf.drop o).take (2 * p)) = some pr := by
    intro pr
    rw [finder_sliding_window, List.mem_filterMap]
    constructor
    · rintro ⟨w, hw, hfind⟩
      obtain ⟨o, ho, rfl⟩ := (mem_slidingWindows hp2).mp hw
      exact ⟨o, ho, hfind⟩
    · rintro ⟨o, ho, hfind⟩
      exact ⟨_, (mem_slidingWindows hp2).mpr ⟨o, ho, rfl⟩, hfind⟩
  have hachar : ∀ pr, pr ∈ finder_aho_corasick (pqnTuples S) buf ↔
      ∃ o, o + 2 * p ≤ buf.length
        ∧ hmFind (pqnTuples S) ((buf.drop o).take (2 * p)) = some pr := by
    intro pr
    rw [finder_aho_corasick, List.mem_filterMap]
    constructor
    · rintro ⟨k, hk, hfind⟩
      rw [List.mem_flatMap] at hk
      obtain ⟨o, _, hkf⟩ := hk
      rw [List.mem_filter] at hkf
      obtain ⟨hkkeys, hocc⟩ := hkf
      have hkl : k.length = 2 * p := by
        apply hlen
        unfold keysOf at hkkeys
        exact List.mem_dedup.mp hkkeys
      unfold occursAt at hocc
      rw [Bool.and_eq_true, decide_eq_true_eq, decide_eq_true_eq] at hocc
      obtain ⟨holen, hoeq⟩ := hocc
      rw [hkl] at holen hoeq
      exact ⟨o, holen, by rw [hoeq]; exact hfind⟩
    · rintro ⟨o, ho, hfind⟩
      refine ⟨(buf.drop o).take (2 * p), ?_, hfind⟩
      rw [List.mem_flatMap]
      refine ⟨o, List.mem_range.mpr (by omega), ?_⟩
      rw [List.mem_filter]
      refine ⟨mem_keysOf_of_hmFind hfind, ?_⟩
      unfold occursAt
      rw [length_window ho]
      simp [ho]
  have hseps : ∀ i, i ∈ separatorIndices fp (2 * p) (fingerTable fp (pqnTuples S)) buf ↔
      ∃ o, o + 2 * p ≤ buf.length ∧ i = o + 2 * p
        ∧ (buf.drop o).take (2 * p) ∈ (pqnTuples S).map Prod.fst := by
    intro i
    constructor
    · intro hi
      obtain ⟨h2p, hl, hmem⟩ := sep_window_is_key hinj hlen hi
      refine ⟨i - 2 * p, by omega, by omega, ?_⟩
      have harg : i - 2 * p + 2 * p = i := by omega
      rw [← harg] at hmem
      rwa [lastBytes_window] at hmem
    · rintro ⟨o, ho, rfl, hmem⟩
      exact sep_of_window ho hmem hp
  have hall : (separatorIndices fp (2 * p) (fingerTable fp (pqnTuples S)) buf).all
      (fun i => decide (2 * p ≤ i) && decide (i ≤ buf.length)) = true := by
    rw [List.all_eq_true]
    intro i hi
    obtain ⟨h2p, hl, _⟩ := sep_window_is_key hinj hlen hi
    simp [h2p, hl]
  refine ⟨fun pr => (hchar pr).trans (hachar pr).symm, ?_⟩
  refine ⟨(separatorIndices fp (2 * p) (fingerTable fp (pqnTuples S)) buf).filterMap
      (fun i => hmFind (pqnTuples S) (lastBytes (2 * p) i buf)), ?_, ?_⟩
  · unfold finder_rabin_karp finderRabinKarpSeps
    rw [if_pos hall]
  · intro pr
    rw [List.mem_filterMap, hchar pr]
    constructor
    · rintro ⟨i, hi, hfind⟩
      obtain ⟨o, ho, rfl, _⟩ := (hseps i).mp hi
      rw [lastBytes_window] at hfind
      exact ⟨o, ho, hfind⟩
    · rintro ⟨o, ho, hfind⟩
      have hkmem : (buf.drop o).take (2 * p) ∈ (pqnTuples S).map Prod.fst :=
        List.mem_map.mpr ⟨_, hmFind_eq_some_mem hfind, rfl⟩
      refine ⟨o + 2 * p, (hseps _).mpr ⟨o, ho, rfl, hkmem⟩, ?_⟩
      rw [lastBytes_window]
      exact hfind

/-- C1 witness: the amended cross-strategy equivalence instantiated at
the prime set {17, 19} (all keys 2 bytes), buffer [1, 67], prime_size 1
and the injective fingerprint. -/
theorem C1_strategy_equivalence_witness :
    (∀ pr, pr ∈ finder_sliding_window (pqnTuples [17, 19]) [1, 67] 1
        ↔ pr ∈ finder_aho_corasick (pqnTuples [17, 19]) [1, 67])
    ∧ ∃ rs, finder_rabin_karp encodeList (2 * 1) (pqnTuples [17, 19]) [1, 67] 1 = some rs
        ∧ ∀ pr, (pr ∈ rs ↔ pr ∈ finder_sliding_window (pqnTuples [17, 19]) [1, 67] 1) :=
  C1_strategy_equivalence encodeList [17, 19] [1, 67] 1 (by decide)
    encodeList_injective (by decide)

end PrimeFinder
